import Mathlib

/-! Shallow embedding of `src/compress.py`, a script that copies and
compresses recently created videos found on mounted volumes.

Modelling conventions:
* a file or directory name is a `List Char`; a path is the list of its
  components (`FsPath`);
* the filesystem is an explicit tree (`FSEntry`); an entry that is neither a
  directory nor a regular file (socket, broken symlink, ...) is modelled as
  `FSEntry.file _ _ false`: on it both `is_dir()` and `is_file()` answer false;
* Python `datetime` values are integers counting microseconds where only
  ordering matters (`_is_recent`), and a broken-down `PyDateTime` record where
  the printed ISO format matters (`get_new_dir`);
* a Python `assert` failure is `Except.error` with the assertion's message;
* each external subprocess invocation (`rsync`, `diskutil unmount`,
  `HandBrakeCLI`) is recorded as an `Event`; functions of the action layer
  return the list of events they emit alongside their result, so "no process
  was spawned" is "the event list is empty".
-/

namespace Compress

/-- Names of files and directories, as lists of characters. -/
abbrev Name := List Char

/-- A filesystem path, as the list of its components. -/
abbrev FsPath := List Name

/-- Python `name.startswith(".")`. -/
def isHidden : Name → Bool
  | [] => false
  | c :: _ => c = '.'

/-- Python `str.rfind(".")` restricted to success: index of the last dot. -/
def rfindDot : Name → Option Nat
  | [] => none
  | c :: rest =>
    match rfindDot rest with
    | some i => some (i + 1)
    | none => if c = '.' then some 0 else none

/-- Python `pathlib.PurePath.suffix` on a final component: with `i` the index
of the last dot, the slice `name[i:]` when `0 < i < len(name) - 1`, else the
empty string. -/
def pySuffix (name : Name) : Name :=
  match rfindDot name with
  | none => []
  | some i => if 0 < i ∧ i < name.length - 1 then name.drop i else []

/-- The default extension allow-list of `_is_video`. -/
def videoExts : List Name := [".mp4".toList, ".mov".toList]

/-- Source `_is_video(file_dir, extensions)`: asserts `file_dir.is_file()`,
then returns whether `file_dir.suffix` is in `extensions`.  The embedding
receives the final name of the path and the filesystem's answer to
`is_file()`. -/
def is_video (name : Name) (file : Bool) (extensions : List Name) : Except String Bool :=
  if file then .ok (decide (pySuffix name ∈ extensions))
  else .error "is not a file"

/-- Microseconds per day: `timedelta(days=1)` at `datetime` resolution. -/
def usPerDay : Int := 86400000000

/-- Source `_is_recent(file_dir, days)`: asserts `days >= 1`, then returns
`created_timestamp + timedelta(days=days) >= datetime.today()`.  The embedding
receives the file's `st_ctime` and the current time as microsecond counts. -/
def is_recent (ctime : Int) (now : Int) (days : Int) : Except String Bool :=
  if days ≥ 1 then .ok (decide (ctime + days * usPerDay ≥ now))
  else .error "days must be at least one"

/-- A broken-down `datetime` value, used where its ISO rendering matters. -/
structure PyDateTime where
  year : Nat
  month : Nat
  day : Nat
  hour : Nat
  minute : Nat
  second : Nat
  microsecond : Nat
deriving DecidableEq

/-- Decimal digits of `n` left-padded with zeros to width `w`. -/
def padNum (w : Nat) (n : Nat) : Name :=
  let d := Nat.toDigits 10 n
  List.replicate (w - d.length) '0' ++ d

/-- Python `datetime.isoformat()`: `YYYY-MM-DDTHH:MM:SS` followed by
`.ffffff` when the microsecond field is nonzero. -/
def isoformat (t : PyDateTime) : Name :=
  padNum 4 t.year ++ ['-'] ++ padNum 2 t.month ++ ['-'] ++ padNum 2 t.day ++
    ['T'] ++ padNum 2 t.hour ++ [':'] ++ padNum 2 t.minute ++ [':'] ++
    padNum 2 t.second ++
    (if t.microsecond = 0 then [] else ['.'] ++ padNum 6 t.microsecond)

/-- Source `get_new_dir(origin_dir, extension)`: asserts `origin_dir.exists()`,
then returns `origin_dir.parent / (datetime.today().isoformat() + extension)`.
The embedding receives the filesystem's answer to `exists()`. -/
def get_new_dir (today : PyDateTime) (origin_dir : FsPath) (origin_exists : Bool)
    (extension : Name) : Except String FsPath :=
  if origin_exists then .ok (origin_dir.dropLast ++ [isoformat today ++ extension])
  else .error "does not exist"

/-- A filesystem tree.  `file name ctime regular` is a non-directory entry;
`regular = false` models an entry that is neither a directory nor a regular
file. -/
inductive FSEntry where
  | file (name : Name) (ctime : Int) (regular : Bool)
  | dir (name : Name) (children : List FSEntry)

/-- The name of an entry. -/
def FSEntry.name : FSEntry → Name
  | .file n _ _ => n
  | .dir n _ => n

/-- Python `is_dir()` on an entry of the tree. -/
def FSEntry.isDir : FSEntry → Bool
  | .dir _ _ => true
  | .file _ _ _ => false

/-- The boot volume name excluded by `get_mounted_volumes`. -/
def bootVolume : Name := "Macintosh HD".toList

/-- Source `get_mounted_volumes()`: asserts `sys.platform == "darwin"`, then
collects the children of `/Volumes` whose name is not `Macintosh HD` and does
not start with a dot.  The embedding receives the platform string and the
children of the mount root. -/
def get_mounted_volumes (platform : String) (volumesRoot : List FSEntry) :
    Except String (List FSEntry) :=
  if platform = "darwin" then
    .ok (volumesRoot.filter fun e => !decide (e.name = bootVolume) && !isHidden e.name)
  else .error "this operation is only supported on macOS"

mutual

/-- Source `get_recent_videos(base_dir, n_days)`: asserts `base_dir.is_dir()`,
then walks the children in order: a child whose name starts with a dot is
skipped; a child directory is recursed into and its results extended onto the
accumulator; any other child is kept iff `_is_video` and `_is_recent` hold
(and `_is_video` aborts on a non-regular file).  Returned paths are relative
to `base_dir`. -/
def get_recent_videos (now : Int) (n_days : Int) : FSEntry → Except String (List FsPath)
  | .file _ _ _ => .error "is not a directory"
  | .dir _ children => walkChildren now n_days children

/-- The loop body of `get_recent_videos` over the remaining children. -/
def walkChildren (now : Int) (n_days : Int) : List FSEntry → Except String (List FsPath)
  | [] => .ok []
  | c :: rest =>
    if isHidden c.name then walkChildren now n_days rest
    else
      match c with
      | .dir n cs =>
        match get_recent_videos now n_days (.dir n cs) with
        | .error e => .error e
        | .ok sub =>
          match walkChildren now n_days rest with
          | .error e => .error e
          | .ok others => .ok (sub.map (fun p => n :: p) ++ others)
      | .file n ct reg =>
        match is_video n reg videoExts with
        | .error e => .error e
        | .ok v =>
          if v then
            match is_recent ct now n_days with
            | .error e => .error e
            | .ok r =>
              match walkChildren now n_days rest with
              | .error e => .error e
              | .ok others => .ok (if r then [n] :: others else others)
          else
            match walkChildren now n_days rest with
            | .error e => .error e
            | .ok others => .ok others

end

/-- One observable action of the pipeline.  `copy`, `unmount` and `transcode`
each stand for the corresponding subprocess invocation (`rsync`,
`diskutil unmount`, `HandBrakeCLI`); `enumVolumes` and `collectVideos` mark
the two read-only discovery steps. -/
inductive Event where
  | enumVolumes : Event
  | collectVideos (volume : Name) : Event
  | copy (source : FsPath) (target : FsPath) : Event
  | unmount (volume : FsPath) : Event
  | transcode (source : FsPath) (output : FsPath) : Event
deriving DecidableEq

/-- Python `Path.name`: the final component of a path. -/
def lastName (p : FsPath) : Name := p.getLastD []

/-- Source `copy_to_dir(source_dir, target_dir)`: asserts
`target_dir.is_dir()`, then spawns `rsync --progress source target`, waits,
and returns `target_dir / source_dir.name`.  The embedding receives the
filesystem's answer to `is_dir()` and returns the spawned events alongside
the result; on the failed assertion no event is emitted and nothing on the
filesystem is touched. -/
def copy_to_dir (source_dir : FsPath) (target_dir : FsPath) (target_is_dir : Bool) :
    List Event × Except String FsPath :=
  if target_is_dir then
    ([Event.copy source_dir target_dir], .ok (target_dir ++ [lastName source_dir]))
  else ([], .error "is not a directory")

/-- Source `run_handbrake(source_dir, preset)`: asserts `_is_video(source_dir)`
(which itself asserts `source_dir.is_file()`), computes
`new_dir = get_new_dir(source_dir)`, spawns `HandBrakeCLI` writing to
`new_dir`, waits, and returns `new_dir`.  The embedding receives the
filesystem's answers to `is_file()` and `exists()` for the source. -/
def run_handbrake (today : PyDateTime) (source_dir : FsPath) (source_is_file : Bool)
    (source_exists : Bool) : List Event × Except String FsPath :=
  match is_video (lastName source_dir) source_is_file videoExts with
  | .error e => ([], .error e)
  | .ok false => ([], .error "is not a video")
  | .ok true =>
    match get_new_dir today source_dir source_exists (".mp4".toList) with
    | .error e => ([], .error e)
    | .ok new_dir => ([Event.transcode source_dir new_dir], .ok new_dir)

/-- Source `unmount_volumes(volumes_dir)`: for each volume in order, asserts
`volume.is_dir()`, spawns `diskutil unmount volume`, waits, and appends the
volume to `done`; returns `done`.  Each volume is carried together with the
filesystem's answer to `is_dir()`.  Events spawned before a failing assertion
are kept. -/
def unmount_volumes : List (FsPath × Bool) → List Event × Except String (List (FsPath × Bool))
  | [] => ([], .ok [])
  | (p, d) :: rest =>
    if d then
      let r := unmount_volumes rest
      (Event.unmount p :: r.1, r.2.map fun done => (p, d) :: done)
    else ([], .error "is not a directory")

/-- The path of the mount root `/Volumes`. -/
def volumesRootPath : FsPath := ["Volumes".toList]

/-- The comprehension `[video for volume in volumes for video in
get_recent_videos(volume)]` of the entry point, with a `collectVideos` marker
per call; returned video paths are rooted at `/Volumes/<volume>`. -/
def collect_all (now : Int) (n_days : Int) : List FSEntry → List Event × Except String (List FsPath)
  | [] => ([], .ok [])
  | v :: rest =>
    match get_recent_videos now n_days v with
    | .error e => ([Event.collectVideos v.name], .error e)
    | .ok ps =>
      let r := collect_all now n_days rest
      (Event.collectVideos v.name :: r.1,
        r.2.map fun others => ps.map (fun p => volumesRootPath ++ [v.name] ++ p) ++ others)

/-- The comprehension `[copy_to_dir(video) for video in videos]` of the entry
point. -/
def copy_all (movies : FsPath) (movies_is_dir : Bool) :
    List FsPath → List Event × Except String (List FsPath)
  | [] => ([], .ok [])
  | p :: rest =>
    let c := copy_to_dir p movies movies_is_dir
    match c.2 with
    | .error e => (c.1, .error e)
    | .ok d =>
      let r := copy_all movies movies_is_dir rest
      (c.1 ++ r.1, r.2.map fun ds => d :: ds)

/-- The comprehension `[run_handbrake(video) for video in copied]` of the
entry point. -/
def transcode_all (today : PyDateTime) (copied_is_file : Bool) (copied_exists : Bool) :
    List FsPath → List Event × Except String (List FsPath)
  | [] => ([], .ok [])
  | p :: rest =>
    let c := run_handbrake today p copied_is_file copied_exists
    match c.2 with
    | .error e => (c.1, .error e)
    | .ok d =>
      let r := transcode_all today copied_is_file copied_exists rest
      (c.1 ++ r.1, r.2.map fun ds => d :: ds)

/-- The environment the entry point runs in: the platform string, the children
of `/Volumes`, the current time (as a microsecond count and broken down), the
copy destination `Path.home() / "Movies"`, and the filesystem's answers about
that destination and about the files `rsync` puts there. -/
structure World where
  platform : String
  volumesRoot : List FSEntry
  now : Int
  today : PyDateTime
  moviesPath : FsPath
  movies_is_dir : Bool
  copied_is_file : Bool
  copied_exists : Bool

/-- The `__main__` block: enumerate volumes, collect recent videos, copy each
video, unmount all volumes, assert `len(volumes) == len(unmounted)`, transcode
each copy, assert `len(videos) == len(compressed)`.  On success it returns the
ordered trace of events. -/
def mainRun (w : World) : Except String (List Event) :=
  match get_mounted_volumes w.platform w.volumesRoot with
  | .error e => .error e
  | .ok volumes =>
    let cv := collect_all w.now 1 volumes
    match cv.2 with
    | .error e => .error e
    | .ok videos =>
      let cp := copy_all w.moviesPath w.movies_is_dir videos
      match cp.2 with
      | .error e => .error e
      | .ok copied =>
        let um := unmount_volumes (volumes.map fun v => (volumesRootPath ++ [v.name], v.isDir))
        match um.2 with
        | .error e => .error e
        | .ok unmounted =>
          if volumes.length = unmounted.length then
            let tc := transcode_all w.today w.copied_is_file w.copied_exists copied
            match tc.2 with
            | .error e => .error e
            | .ok compressed =>
              if videos.length = compressed.length then
                .ok (Event.enumVolumes :: cv.1 ++ cp.1 ++ um.1 ++ tc.1)
              else .error "some videos were not compressed"
          else .error "some volumes were not unmounted"

/-- Reachability in the tree: `PathTo e p t` holds when, starting from entry
`e`, following the components of `p` through children reaches the entry
`t`. -/
inductive PathTo : FSEntry → FsPath → FSEntry → Prop where
  | here (e : FSEntry) : PathTo e [] e
  | child {n : Name} {cs : List FSEntry} {p : FsPath} {t : FSEntry} (c : FSEntry)
      (hc : c ∈ cs) (hp : PathTo c p t) : PathTo (.dir n cs) (c.name :: p) t

/-- Whether an event is a `collectVideos` marker. -/
def Event.isCollect : Event → Bool
  | .collectVideos _ => true
  | _ => false

/-- Whether an event is an `rsync` copy. -/
def Event.isCopy : Event → Bool
  | .copy _ _ => true
  | _ => false

/-- Whether an event is a `diskutil unmount`. -/
def Event.isUnmount : Event → Bool
  | .unmount _ => true
  | _ => false

/-- Whether an event is a `HandBrakeCLI` transcode. -/
def Event.isTranscode : Event → Bool
  | .transcode _ _ => true
  | _ => false

/-- True iff every transcode event in the trace happens before every unmount
event: no unmount event is followed, anywhere later, by a transcode event. -/
def noTranscodeAfterUnmount : List Event → Bool
  | [] => true
  | e :: rest =>
    (if e.isUnmount then rest.all fun x => !x.isTranscode else true) &&
      noTranscodeAfterUnmount rest

/-- Two datetimes fall on the same calendar day. -/
def sameCalendarDay (a b : PyDateTime) : Prop :=
  a.year = b.year ∧ a.month = b.month ∧ a.day = b.day

/-- Shorthand to build a name from a string literal. -/
def nm (s : String) : Name := s.toList

/-- A concrete datetime: 2024-05-17, 10:00:00. -/
def demoT1 : PyDateTime := ⟨2024, 5, 17, 10, 0, 0, 0⟩

/-- A concrete datetime later on the same day: 2024-05-17, 11:30:00. -/
def demoT2 : PyDateTime := ⟨2024, 5, 17, 11, 30, 0, 0⟩

/-- A concrete copied video path `/Users/me/Movies/clip.mp4`. -/
def demoSource1 : FsPath := [nm "Users", nm "me", nm "Movies", nm "clip.mp4"]

/-- A second copied video path in the same directory. -/
def demoSource2 : FsPath := [nm "Users", nm "me", nm "Movies", nm "trip.mov"]

/-- The transcode output path computed for `demoSource1` at `demoT1`. -/
def demoOut1 : FsPath := [nm "Users", nm "me", nm "Movies", isoformat demoT1 ++ nm ".mp4"]

/-- The transcode output path computed for `demoSource1` at `demoT2`. -/
def demoOut2 : FsPath := [nm "Users", nm "me", nm "Movies", isoformat demoT2 ++ nm ".mp4"]

/-- The transcode output path computed for `demoSource2` at `demoT1`. -/
def demoOut3 : FsPath := [nm "Users", nm "me", nm "Movies", isoformat demoT1 ++ nm ".mp4"]

/-- A concrete environment: one volume `USB` holding one fresh `clip.mp4`. -/
def demoWorld : World where
  platform := "darwin"
  volumesRoot := [.dir (nm "USB") [.file (nm "clip.mp4") 0 true]]
  now := 0
  today := demoT1
  moviesPath := [nm "Users", nm "me", nm "Movies"]
  movies_is_dir := true
  copied_is_file := true
  copied_exists := true

/-- The event trace `mainRun` produces on `demoWorld`. -/
def demoTrace : List Event :=
  [Event.enumVolumes,
   Event.collectVideos (nm "USB"),
   Event.copy [nm "Volumes", nm "USB", nm "clip.mp4"] [nm "Users", nm "me", nm "Movies"],
   Event.unmount [nm "Volumes", nm "USB"],
   Event.transcode [nm "Users", nm "me", nm "Movies", nm "clip.mp4"] demoOut1]

/-- A concrete volume tree: a hidden file, a nested directory holding a fresh
video, and a 10-day-old video. -/
def demoTree : FSEntry :=
  .dir (nm "USB")
    [.file (nm ".DS_Store") 0 true,
     .dir (nm "sub") [.file (nm "clip.mp4") 0 true],
     .file (nm "old.mov") (-(10 * usPerDay)) true]

/-- A concrete volume tree holding a non-hidden entry that is neither a
directory nor a regular file. -/
def demoBadTree : FSEntry :=
  .dir (nm "USB") [.file (nm "weird.sock") 0 false]

/-- A concrete mount root: the boot volume, a hidden entry, and one real
volume. -/
def demoRoots : List FSEntry :=
  [.dir bootVolume [], .file (nm ".vol") 0 true, .dir (nm "USB") []]

/-- Every component of the path is non-hidden. -/
def NonHiddenPath (p : FsPath) : Prop := ∀ n0 ∈ p, isHidden n0 = false

/-- The path leads from the entry to a regular file accepted by both
`_is_video` (default allow-list) and `_is_recent` (given `n_days`). -/
def RecentVideoAt (now n_days : Int) (e : FSEntry) (p : FsPath) : Prop :=
  ∃ fn ct, PathTo e p (.file fn ct true) ∧
    is_video fn true videoExts = .ok true ∧ is_recent ct now n_days = .ok true

/-- The path leads from the entry to an entry that is neither a directory nor
a regular file. -/
def BadEntryAt (e : FSEntry) (p : FsPath) : Prop :=
  ∃ fn ct, PathTo e p (.file fn ct false)

/-- Mutual induction over the filesystem tree and child lists, packaged from
the recursor of the nested inductive. -/
theorem fsEntry_induction (m1 : FSEntry → Prop) (m2 : List FSEntry → Prop)
    (hf : ∀ n ct r, m1 (.file n ct r))
    (hd : ∀ n cs, m2 cs → m1 (.dir n cs))
    (hn : m2 [])
    (hc : ∀ c cs, m1 c → m2 cs → m2 (c :: cs)) :
    (∀ e, m1 e) ∧ (∀ l, m2 l) :=
  ⟨fun e => FSEntry.rec hf hd hn hc e,
   fun l => List.rec hn (fun h t iht => hc h t (FSEntry.rec hf hd hn hc h) iht) l⟩

/-- C2: for every timestamp pair and every `days >= 1`, `_is_recent` returns
true iff `now - creation_time <= days`, and at the boundary where the age is
exactly `days` it returns true (the comparison is inclusive). -/
theorem claim_C2 (ctime now days : Int) (h : days ≥ 1) :
    (is_recent ctime now days = .ok true ↔ now - ctime ≤ days * usPerDay) ∧
    (now - ctime = days * usPerDay → is_recent ctime now days = .ok true) := by
  unfold is_recent
  rw [if_pos h]
  simp only [Except.ok.injEq, decide_eq_true_eq]
  omega

/-- Witness for C2 at the boundary input: the file is exactly one day old and
`_is_recent` accepts it. -/
theorem claim_C2_witness :
    (is_recent 0 usPerDay 1 = .ok true ↔ usPerDay - 0 ≤ 1 * usPerDay) ∧
    (usPerDay - 0 = 1 * usPerDay → is_recent 0 usPerDay 1 = .ok true) :=
  claim_C2 0 usPerDay 1 (by norm_num)

/-- C5: on a regular file, `_is_video` with the default allow-list returns
true iff the suffix is exactly `.mp4` or `.mov` (comparison of raw character
lists, hence case-sensitive), and on a non-regular file it aborts. -/
theorem claim_C5 (name : Name) :
    (is_video name true videoExts = .ok true ↔
      pySuffix name = ".mp4".toList ∨ pySuffix name = ".mov".toList) ∧
    is_video name false videoExts = .error "is not a file" := by
  constructor
  · simp [is_video, videoExts]
  · rfl

/-- C6: for every existing origin and every extension, `get_new_dir` returns
a path in the origin's parent directory whose final name ends with the
extension, and aborts when the origin does not exist. -/
theorem claim_C6 (today : PyDateTime) (origin : FsPath) (extension : Name) :
    (∀ result, get_new_dir today origin true extension = .ok result →
      result.dropLast = origin.dropLast ∧ extension <:+ lastName result) ∧
    get_new_dir today origin false extension = .error "does not exist" := by
  constructor
  · intro result hres
    have hres2 : origin.dropLast ++ [isoformat today ++ extension] = result := by
      simpa [get_new_dir] using hres
    subst hres2
    refine ⟨List.dropLast_concat, ?_⟩
    have hlast : lastName (origin.dropLast ++ [isoformat today ++ extension]) =
        isoformat today ++ extension := by
      simp [lastName]
    rw [hlast]
    exact List.suffix_append (isoformat today) extension
  · rfl

/-- The result path computed for `demoSource1` at `demoT1` by `get_new_dir`. -/
def demoResult6 : FsPath := demoSource1.dropLast ++ [isoformat demoT1 ++ ".mp4".toList]

/-- Witness for C6 at a concrete origin and datetime. -/
theorem claim_C6_witness :
    (demoResult6.dropLast = demoSource1.dropLast ∧ ".mp4".toList <:+ lastName demoResult6) ∧
    get_new_dir demoT1 demoSource1 false (".mp4".toList) = .error "does not exist" :=
  ⟨(claim_C6 demoT1 demoSource1 (".mp4".toList)).1 demoResult6 rfl,
   (claim_C6 demoT1 demoSource1 (".mp4".toList)).2⟩

/-- C7: with a destination that is not a directory, `copy_to_dir` aborts
having spawned no subprocess (empty event list, so the filesystem is
untouched); with a directory destination it returns
`target_dir / source.name`. -/
theorem claim_C7 (source target : FsPath) :
    (copy_to_dir source target false).1 = [] ∧
    (copy_to_dir source target false).2 = .error "is not a directory" ∧
    (copy_to_dir source target true).2 = .ok (target ++ [lastName source]) :=
  ⟨rfl, rfl, rfl⟩

/-- C8: every volume list returned by `get_mounted_volumes` is free of the
boot volume name and of hidden names, and on any platform other than darwin
the function aborts. -/
theorem claim_C8 (platform : String) (roots : List FSEntry) :
    (∀ vols, get_mounted_volumes platform roots = .ok vols →
      ∀ e ∈ vols, e.name ≠ bootVolume ∧ isHidden e.name = false) ∧
    (platform ≠ "darwin" →
      get_mounted_volumes platform roots = .error "this operation is only supported on macOS") := by
  constructor
  · intro vols hv e he
    unfold get_mounted_volumes at hv
    by_cases hp : platform = "darwin"
    · rw [if_pos hp] at hv
      have hvols : roots.filter (fun e => !decide (e.name = bootVolume) && !isHidden e.name) = vols := by
        simpa using hv
      subst hvols
      have hpred := (List.mem_filter.mp he).2
      simp only [Bool.and_eq_true, Bool.not_eq_true', decide_eq_false_iff_not] at hpred
      exact ⟨hpred.1, hpred.2⟩
    · rw [if_neg hp] at hv
      simp at hv
  · intro hp
    unfold get_mounted_volumes
    rw [if_neg hp]

/-- Witness for C8: the surviving volume of `demoRoots` is neither the boot
volume nor hidden, and a linux run aborts. -/
theorem claim_C8_witness :
    ((FSEntry.dir (nm "USB") []).name ≠ bootVolume ∧
      isHidden (FSEntry.dir (nm "USB") []).name = false) ∧
    get_mounted_volumes "linux" [] = .error "this operation is only supported on macOS" :=
  ⟨(claim_C8 "darwin" demoRoots).1 [.dir (nm "USB") []] rfl (.dir (nm "USB") []) (by simp),
   (claim_C8 "linux" []).2 (by decide)⟩

/-- When `unmount_volumes` succeeds, the returned list is its input. -/
theorem unmount_volumes_ok_eq (l : List (FsPath × Bool)) :
    ∀ done, (unmount_volumes l).2 = .ok done → done = l := by
  induction l with
  | nil =>
    intro done h
    simpa [unmount_volumes] using h.symm
  | cons hd tl ih =>
    obtain ⟨p, d⟩ := hd
    intro done h
    cases d with
    | false => simp [unmount_volumes] at h
    | true =>
      unfold unmount_volumes at h
      simp only [if_pos] at h
      cases htl : (unmount_volumes tl).2 with
      | error e => rw [htl] at h; simp [Except.map] at h
      | ok done2 =>
        rw [htl] at h
        simp only [Except.map, Except.ok.injEq] at h
        rw [ih done2 htl] at h
        exact h.symm

/-- When `copy_all` succeeds, it returns one copied path per input video. -/
theorem copy_all_ok_length (movies : FsPath) (b : Bool) (vids : List FsPath) :
    ∀ copied, (copy_all movies b vids).2 = .ok copied → copied.length = vids.length := by
  induction vids with
  | nil =>
    intro copied h
    have : ([] : List FsPath) = copied := by simpa [copy_all] using h
    simp [← this]
  | cons v tl ih =>
    intro copied h
    unfold copy_all at h
    cases b with
    | false => simp [copy_to_dir] at h
    | true =>
      simp only [copy_to_dir, if_pos] at h
      cases htl : (copy_all movies true tl).2 with
      | error e => rw [htl] at h; simp [Except.map] at h
      | ok ds =>
        rw [htl] at h
        simp only [Except.map, Except.ok.injEq] at h
        rw [← h]
        simp [ih ds htl]

/-- When `transcode_all` succeeds, it returns one output path per input
copy. -/
theorem transcode_all_ok_length (today : PyDateTime) (cf ce : Bool) (vids : List FsPath) :
    ∀ outs, (transcode_all today cf ce vids).2 = .ok outs → outs.length = vids.length := by
  induction vids with
  | nil =>
    intro outs h
    have : ([] : List FsPath) = outs := by simpa [transcode_all] using h
    simp [← this]
  | cons v tl ih =>
    intro outs h
    unfold transcode_all at h
    simp only [] at h
    cases hrh : (run_handbrake today v cf ce).2 with
    | error e => rw [hrh] at h; simp at h
    | ok d =>
      rw [hrh] at h
      cases htl : (transcode_all today cf ce tl).2 with
      | error e => rw [htl] at h; simp [Except.map] at h
      | ok ds =>
        rw [htl] at h
        simp only [Except.map, Except.ok.injEq] at h
        rw [← h]
        simp [ih ds htl]

/-- C9: on a list of directories `unmount_volumes` returns exactly its input,
and the two length assertions of the entry point (`len(volumes) ==
len(unmounted)` and `len(videos) == len(compressed)`) hold whenever the
per-element steps all complete. -/
theorem claim_C9 :
    (∀ vols : List (FsPath × Bool), (∀ v ∈ vols, v.2 = true) →
      (unmount_volumes vols).2 = .ok vols) ∧
    (∀ vols unmounted, (unmount_volumes vols).2 = .ok unmounted →
      vols.length = unmounted.length) ∧
    (∀ (movies : FsPath) (b : Bool) (vids copied : List FsPath) (today : PyDateTime)
      (cf ce : Bool) (compressed : List FsPath),
      (copy_all movies b vids).2 = .ok copied →
      (transcode_all today cf ce copied).2 = .ok compressed →
      vids.length = compressed.length) := by
  refine ⟨?_, ?_, ?_⟩
  · intro vols hall
    induction vols with
    | nil => rfl
    | cons hd tl ih =>
      obtain ⟨p, d⟩ := hd
      have hd2 : d = true := hall (p, d) (by simp)
      subst hd2
      have htl : (unmount_volumes tl).2 = .ok tl :=
        ih fun v hv => hall v (List.mem_cons_of_mem _ hv)
      unfold unmount_volumes
      simp only [if_pos]
      rw [htl]
      rfl
  · intro vols unmounted h
    rw [unmount_volumes_ok_eq vols unmounted h]
  · intro movies b vids copied today cf ce compressed h1 h2
    rw [← copy_all_ok_length movies b vids copied h1,
      ← transcode_all_ok_length today cf ce copied compressed h2]

/-- Witness for C9 on a one-volume list of directories. -/
theorem claim_C9_witness :
    (unmount_volumes [([nm "Volumes", nm "USB"], true)]).2 =
      .ok [([nm "Volumes", nm "USB"], true)] :=
  claim_C9.1 [([nm "Volumes", nm "USB"], true)] (by simp)

/-- Every event emitted by the collect phase is a `collectVideos` marker. -/
theorem collect_all_events (now nd : Int) (vs : List FSEntry) :
    ∀ e ∈ (collect_all now nd vs).1, e.isCollect = true := by
  induction vs with
  | nil => intro e he; simp [collect_all] at he
  | cons v tl ih =>
    intro e he
    unfold collect_all at he
    cases hg : get_recent_videos now nd v with
    | error er =>
      rw [hg] at he
      simp only [List.mem_singleton] at he
      rw [he]; rfl
    | ok ps =>
      rw [hg] at he
      simp only [] at he
      rcases List.mem_cons.mp he with h1 | h2
      · rw [h1]; rfl
      · exact ih e h2

/-- Every event emitted by the copy phase is an `rsync` copy. -/
theorem copy_all_events (movies : FsPath) (b : Bool) (vids : List FsPath) :
    ∀ e ∈ (copy_all movies b vids).1, e.isCopy = true := by
  induction vids with
  | nil => intro e he; simp [copy_all] at he
  | cons p tl ih =>
    intro e he
    unfold copy_all at he
    cases b with
    | false => simp [copy_to_dir] at he
    | true =>
      simp only [copy_to_dir, if_pos, List.mem_append, List.mem_singleton,
        List.cons_append, List.nil_append, List.mem_cons] at he
      rcases he with h1 | h2
      · rw [h1]; rfl
      · exact ih e h2

/-- Every event emitted by a `run_handbrake` call is a transcode. -/
theorem run_handbrake_events (today : PyDateTime) (s : FsPath) (f ex : Bool) :
    ∀ e ∈ (run_handbrake today s f ex).1, e.isTranscode = true := by
  intro e he
  unfold run_handbrake at he
  cases hv : is_video (lastName s) f videoExts with
  | error er => rw [hv] at he; simp at he
  | ok b =>
    rw [hv] at he
    cases b with
    | false => simp at he
    | true =>
      cases hg : get_new_dir today s ex (".mp4".toList) with
      | error er => rw [hg] at he; simp at he
      | ok nd =>
        rw [hg] at he
        simp only [List.mem_singleton] at he
        rw [he]; rfl

/-- Every event emitted by the unmount phase is a `diskutil unmount`. -/
theorem unmount_volumes_events (l : List (FsPath × Bool)) :
    ∀ e ∈ (unmount_volumes l).1, e.isUnmount = true := by
  induction l with
  | nil => intro e he; simp [unmount_volumes] at he
  | cons hd tl ih =>
    obtain ⟨p, d⟩ := hd
    intro e he
    cases d with
    | false => simp [unmount_volumes] at he
    | true =>
      unfold unmount_volumes at he
      simp only [if_pos] at he
      rcases List.mem_cons.mp he with h1 | h2
      · rw [h1]; rfl
      · exact ih e h2

/-- Every event emitted by the transcode phase is a `HandBrakeCLI`
transcode. -/
theorem transcode_all_events (today : PyDateTime) (cf ce : Bool) (vids : List FsPath) :
    ∀ e ∈ (transcode_all today cf ce vids).1, e.isTranscode = true := by
  induction vids with
  | nil => intro e he; simp [transcode_all] at he
  | cons p tl ih =>
    intro e he
    unfold transcode_all at he
    simp only [] at he
    cases hrh : (run_handbrake today p cf ce).2 with
    | error er =>
      rw [hrh] at he
      exact run_handbrake_events today p cf ce e he
    | ok d =>
      rw [hrh] at he
      rcases List.mem_append.mp he with h1 | h2
      · exact run_handbrake_events today p cf ce e h1
      · exact ih e h2

/-- C3 (amended): every successful run of the entry point produces its trace
in the order enumerate, collect, copy, unmount, transcode — unmounting
happens only after all copies are attempted, and the transcodes come after
(not before) the unmounts. -/
theorem claim_C3 (w : World) (tr : List Event) (h : mainRun w = .ok tr) :
    ∃ evC evCp evU evT,
      tr = Event.enumVolumes :: (evC ++ evCp ++ evU ++ evT) ∧
      (∀ e ∈ evC, e.isCollect = true) ∧ (∀ e ∈ evCp, e.isCopy = true) ∧
      (∀ e ∈ evU, e.isUnmount = true) ∧ (∀ e ∈ evT, e.isTranscode = true) := by
  unfold mainRun at h
  cases h1 : get_mounted_volumes w.platform w.volumesRoot with
  | error e => rw [h1] at h; simp at h
  | ok volumes =>
    rw [h1] at h
    simp only [] at h
    cases h2 : (collect_all w.now 1 volumes).2 with
    | error e => rw [h2] at h; simp at h
    | ok videos =>
      rw [h2] at h
      simp only [] at h
      cases h3 : (copy_all w.moviesPath w.movies_is_dir videos).2 with
      | error e => rw [h3] at h; simp at h
      | ok copied =>
        rw [h3] at h
        simp only [] at h
        cases h4 : (unmount_volumes
            (volumes.map fun v => (volumesRootPath ++ [v.name], v.isDir))).2 with
        | error e => rw [h4] at h; simp at h
        | ok unmounted =>
          rw [h4] at h
          simp only [] at h
          by_cases h5 : volumes.length = unmounted.length
          · rw [if_pos h5] at h
            cases h6 : (transcode_all w.today w.copied_is_file w.copied_exists copied).2 with
            | error e => rw [h6] at h; simp at h
            | ok compressed =>
              rw [h6] at h
              simp only [] at h
              by_cases h7 : videos.length = compressed.length
              · rw [if_pos h7] at h
                simp only [Except.ok.injEq] at h
                refine ⟨(collect_all w.now 1 volumes).1,
                  (copy_all w.moviesPath w.movies_is_dir videos).1,
                  (unmount_volumes
                    (volumes.map fun v => (volumesRootPath ++ [v.name], v.isDir))).1,
                  (transcode_all w.today w.copied_is_file w.copied_exists copied).1,
                  ?_, collect_all_events w.now 1 volumes,
                  copy_all_events w.moviesPath w.movies_is_dir videos,
                  unmount_volumes_events _,
                  transcode_all_events w.today w.copied_is_file w.copied_exists copied⟩
                rw [← h]
                simp [List.cons_append, List.append_assoc]
              · rw [if_neg h7] at h; simp at h
          · rw [if_neg h5] at h; simp at h

/-- Counterexample to C3 as stated: on the concrete environment `demoWorld`
the run succeeds with trace `demoTrace`, in which the volume unmount happens
before the transcode, so it is false that every transcode happens before any
volume is unmounted. -/
theorem claim_C3_counterexample :
    mainRun demoWorld = .ok demoTrace ∧ noTranscodeAfterUnmount demoTrace = false :=
  ⟨rfl, rfl⟩

/-- Witness for the amended C3 on the concrete run over `demoWorld`. -/
theorem claim_C3_witness :
    ∃ evC evCp evU evT,
      demoTrace = Event.enumVolumes :: (evC ++ evCp ++ evU ++ evT) ∧
      (∀ e ∈ evC, e.isCollect = true) ∧ (∀ e ∈ evCp, e.isCopy = true) ∧
      (∀ e ∈ evU, e.isUnmount = true) ∧ (∀ e ∈ evT, e.isTranscode = true) :=
  claim_C3 demoWorld demoTrace rfl

/-- A successful `run_handbrake` writes to the source's parent directory,
under a name built from the full current ISO timestamp plus `.mp4`. -/
theorem run_handbrake_ok_shape (t : PyDateTime) (s : FsPath) (f ex : Bool) (o : FsPath)
    (h : (run_handbrake t s f ex).2 = .ok o) :
    o = s.dropLast ++ [isoformat t ++ ".mp4".toList] := by
  unfold run_handbrake at h
  cases hv : is_video (lastName s) f videoExts with
  | error er => rw [hv] at h; simp at h
  | ok b =>
    rw [hv] at h
    cases b with
    | false => simp at h
    | true =>
      cases hg : get_new_dir t s ex (".mp4".toList) with
      | error er => rw [hg] at h; simp at h
      | ok nd =>
        rw [hg] at h
        simp only [Except.ok.injEq] at h
        cases ex with
        | false => simp [get_new_dir] at hg
        | true =>
          have hnd : s.dropLast ++ [isoformat t ++ ".mp4".toList] = nd := by
            simpa [get_new_dir] using hg
          rw [← h, ← hnd]

/-- C4 (amended): two `run_handbrake` invocations collide — the second
silently overwrites the first — exactly when their sources share a parent
directory and the two current timestamps render to the same full ISO string
(equal down to the microsecond); a shared calendar day alone does not make
the output paths equal. -/
theorem claim_C4 (t1 t2 : PyDateTime) (s1 s2 : FsPath) (f1 e1 f2 e2 : Bool)
    (o1 o2 : FsPath) (hiso : isoformat t1 = isoformat t2)
    (hpar : s1.dropLast = s2.dropLast)
    (h1 : (run_handbrake t1 s1 f1 e1).2 = .ok o1)
    (h2 : (run_handbrake t2 s2 f2 e2).2 = .ok o2) : o1 = o2 := by
  rw [run_handbrake_ok_shape t1 s1 f1 e1 o1 h1,
    run_handbrake_ok_shape t2 s2 f2 e2 o2 h2, hiso, hpar]

/-- Counterexample to C4 as stated: `demoT1` and `demoT2` fall on the same
calendar day, yet the two `run_handbrake` invocations compute different
output paths (the name embeds the time of day), so no silent overwrite
occurs for merely same-day runs. -/
theorem claim_C4_counterexample :
    sameCalendarDay demoT1 demoT2 ∧
    (run_handbrake demoT1 demoSource1 true true).2 = .ok demoOut1 ∧
    (run_handbrake demoT2 demoSource1 true true).2 = .ok demoOut2 ∧
    demoOut1 ≠ demoOut2 :=
  ⟨⟨rfl, rfl, rfl⟩, rfl, rfl, by decide⟩

/-- Witness for the amended C4: at the very same timestamp, two different
sources in the same directory map to the same output path. -/
theorem claim_C4_witness : demoOut1 = demoOut3 :=
  claim_C4 demoT1 demoT1 demoSource1 demoSource2 true true true true demoOut1 demoOut3
    rfl rfl rfl rfl

/-- Soundness of the walk: every returned path is entirely non-hidden and
leads to a regular, recent video file; stated for the tree and for child
lists simultaneously. -/
theorem grv_sound (now nd : Int) :
    (∀ e, ∀ res, get_recent_videos now nd e = .ok res →
      ∀ p ∈ res, NonHiddenPath p ∧ RecentVideoAt now nd e p) ∧
    (∀ l, ∀ res, walkChildren now nd l = .ok res → ∀ p ∈ res,
      ∃ c, c ∈ l ∧ isHidden c.name = false ∧
        ∃ q, p = c.name :: q ∧ NonHiddenPath q ∧ RecentVideoAt now nd c q) := by
  refine fsEntry_induction
    (fun e => ∀ res, get_recent_videos now nd e = .ok res →
      ∀ p ∈ res, NonHiddenPath p ∧ RecentVideoAt now nd e p)
    (fun l => ∀ res, walkChildren now nd l = .ok res → ∀ p ∈ res,
      ∃ c, c ∈ l ∧ isHidden c.name = false ∧
        ∃ q, p = c.name :: q ∧ NonHiddenPath q ∧ RecentVideoAt now nd c q)
    ?_ ?_ ?_ ?_
  · intro n ct r res h
    simp [get_recent_videos] at h
  · intro n cs ih res h p hp
    have hw : walkChildren now nd cs = .ok res := by
      simpa [get_recent_videos] using h
    obtain ⟨c, hcmem, hchid, q, hpq, hnhq, fn, ct, hpt, hvid, hrec⟩ := ih res hw p hp
    subst hpq
    refine ⟨?_, fn, ct, PathTo.child c hcmem hpt, hvid, hrec⟩
    intro n0 hn0
    rcases List.mem_cons.mp hn0 with h1 | h2
    · rw [h1]; exact hchid
    · exact hnhq n0 h2
  · intro res h p hp
    have hres : ([] : List FsPath) = res := by simpa [walkChildren] using h
    rw [← hres] at hp
    simp at hp
  · intro c cs ih1 ih2 res h p hp
    unfold walkChildren at h
    by_cases hhid : isHidden c.name = true
    · rw [if_pos hhid] at h
      obtain ⟨c2, hc2, hrest⟩ := ih2 res h p hp
      exact ⟨c2, List.mem_cons_of_mem _ hc2, hrest⟩
    · have hhid2 : isHidden c.name = false := by simpa using hhid
      rw [if_neg hhid] at h
      cases c with
      | dir n2 cs2 =>
        simp only [] at h
        cases hg : get_recent_videos now nd (.dir n2 cs2) with
        | error er => rw [hg] at h; simp at h
        | ok sub =>
          rw [hg] at h
          cases hw : walkChildren now nd cs with
          | error er => rw [hw] at h; simp at h
          | ok others =>
            rw [hw] at h
            simp only [Except.ok.injEq] at h
            rw [← h] at hp
            rcases List.mem_append.mp hp with h1 | h2
            · obtain ⟨q, hq1, hq2⟩ := List.mem_map.mp h1
              obtain ⟨hnh, fn, ct, hpt, hvid, hrec⟩ := ih1 sub hg q hq1
              exact ⟨.dir n2 cs2, List.mem_cons_self _ _, hhid2, q, hq2.symm,
                hnh, fn, ct, hpt, hvid, hrec⟩
            · obtain ⟨c2, hc2, hrest⟩ := ih2 others hw p h2
              exact ⟨c2, List.mem_cons_of_mem _ hc2, hrest⟩
      | file n2 ct2 reg =>
        simp only [] at h
        cases hv : is_video n2 reg videoExts with
        | error er => rw [hv] at h; simp at h
        | ok v =>
          rw [hv] at h
          cases v with
          | true =>
            cases hr : is_recent ct2 now nd with
            | error er => rw [hr] at h; simp at h
            | ok r =>
              rw [hr] at h
              cases hw : walkChildren now nd cs with
              | error er => rw [hw] at h; simp at h
              | ok others =>
                rw [hw] at h
                cases r with
                | true =>
                  have hres : [n2] :: others = res := by simpa using h
                  rw [← hres] at hp
                  rcases List.mem_cons.mp hp with h1 | h2
                  · have hreg : reg = true := by
                      cases reg
                      · simp [is_video] at hv
                      · rfl
                    subst hreg
                    refine ⟨.file n2 ct2 true, List.mem_cons_self _ _, hhid2,
                      [], h1, fun n0 hn0 => absurd hn0 (List.not_mem_nil n0),
                      n2, ct2, PathTo.here _, ?_, hr⟩
                    exact hv
                  · obtain ⟨c2, hc2, hrest⟩ := ih2 others hw p h2
                    exact ⟨c2, List.mem_cons_of_mem _ hc2, hrest⟩
                | false =>
                  have hres : others = res := by simpa using h
                  rw [← hres] at hp
                  obtain ⟨c2, hc2, hrest⟩ := ih2 others hw p hp
                  exact ⟨c2, List.mem_cons_of_mem _ hc2, hrest⟩
          | false =>
            cases hw : walkChildren now nd cs with
            | error er => rw [hw] at h; simp at h
            | ok others =>
              rw [hw] at h
              have hres : others = res := by simpa using h
              rw [← hres] at hp
              obtain ⟨c2, hc2, hrest⟩ := ih2 others hw p hp
              exact ⟨c2, List.mem_cons_of_mem _ hc2, hrest⟩

/-- Completeness of the walk: every entirely non-hidden path to a regular,
recent video file is returned — the walk recurses into every non-hidden
subdirectory at arbitrary depth; stated for the tree and for child lists
simultaneously. -/
theorem grv_complete (now nd : Int) :
    (∀ e, ∀ res, get_recent_videos now nd e = .ok res →
      ∀ p, NonHiddenPath p → RecentVideoAt now nd e p → p ∈ res) ∧
    (∀ l, ∀ res, walkChildren now nd l = .ok res →
      ∀ c ∈ l, isHidden c.name = false →
      ∀ q, NonHiddenPath q → RecentVideoAt now nd c q → (c.name :: q) ∈ res) := by
  refine fsEntry_induction
    (fun e => ∀ res, get_recent_videos now nd e = .ok res →
      ∀ p, NonHiddenPath p → RecentVideoAt now nd e p → p ∈ res)
    (fun l => ∀ res, walkChildren now nd l = .ok res →
      ∀ c ∈ l, isHidden c.name = false →
      ∀ q, NonHiddenPath q → RecentVideoAt now nd c q → (c.name :: q) ∈ res)
    ?_ ?_ ?_ ?_
  · intro n ct r res h
    simp [get_recent_videos] at h
  · intro n cs ih res h p hnh hrva
    have hw : walkChildren now nd cs = .ok res := by
      simpa [get_recent_videos] using h
    obtain ⟨fn, ct, hpt, hvid, hrec⟩ := hrva
    cases hpt with
    | child c hc hp2 =>
      have hchid : isHidden c.name = false := hnh c.name (List.mem_cons_self _ _)
      exact ih res hw c hc hchid _ (fun n0 hn0 => hnh n0 (List.mem_cons_of_mem _ hn0))
        ⟨fn, ct, hp2, hvid, hrec⟩
  · intro res h c hc
    simp at hc
  · intro c cs ih1 ih2 res h c2 hc2 hc2hid q hnhq hrva
    unfold walkChildren at h
    rcases List.mem_cons.mp hc2 with hceq | hmem
    · subst hceq
      have hnothid : ¬ isHidden c2.name = true := by simp [hc2hid]
      rw [if_neg hnothid] at h
      cases c2 with
      | dir n2 cs2 =>
        simp only [] at h
        cases hg : get_recent_videos now nd (.dir n2 cs2) with
        | error er => rw [hg] at h; simp at h
        | ok sub =>
          rw [hg] at h
          cases hw : walkChildren now nd cs with
          | error er => rw [hw] at h; simp at h
          | ok others =>
            rw [hw] at h
            have hres : sub.map (fun p => n2 :: p) ++ others = res := by simpa using h
            rw [← hres]
            have hq : q ∈ sub := ih1 sub hg q hnhq hrva
            exact List.mem_append.mpr (Or.inl (List.mem_map.mpr ⟨q, hq, rfl⟩))
      | file n2 ct2 reg =>
        simp only [] at h
        obtain ⟨fn, ct, hpt, hvid, hrec⟩ := hrva
        cases hpt with
        | here =>
          rw [hvid] at h
          rw [hrec] at h
          cases hw : walkChildren now nd cs with
          | error er => rw [hw] at h; simp at h
          | ok others =>
            rw [hw] at h
            have hres : [n2] :: others = res := by simpa using h
            rw [← hres]
            exact List.mem_cons_self _ _
    · by_cases hhid : isHidden c.name = true
      · rw [if_pos hhid] at h
        exact ih2 res h c2 hmem hc2hid q hnhq hrva
      · rw [if_neg hhid] at h
        cases c with
        | dir n2 cs2 =>
          simp only [] at h
          cases hg : get_recent_videos now nd (.dir n2 cs2) with
          | error er => rw [hg] at h; simp at h
          | ok sub =>
            rw [hg] at h
            cases hw : walkChildren now nd cs with
            | error er => rw [hw] at h; simp at h
            | ok others =>
              rw [hw] at h
              have hres : sub.map (fun p => n2 :: p) ++ others = res := by simpa using h
              rw [← hres]
              exact List.mem_append.mpr (Or.inr (ih2 others hw c2 hmem hc2hid q hnhq hrva))
        | file n2 ct2 reg =>
          simp only [] at h
          cases hv : is_video n2 reg videoExts with
          | error er => rw [hv] at h; simp at h
          | ok v =>
            rw [hv] at h
            cases v with
            | true =>
              cases hr : is_recent ct2 now nd with
              | error er => rw [hr] at h; simp at h
              | ok r =>
                rw [hr] at h
                cases hw : walkChildren now nd cs with
                | error er => rw [hw] at h; simp at h
                | ok others =>
                  rw [hw] at h
                  have htail := ih2 others hw c2 hmem hc2hid q hnhq hrva
                  cases r with
                  | true =>
                    have hres : [n2] :: others = res := by simpa using h
                    rw [← hres]
                    exact List.mem_cons_of_mem _ htail
                  | false =>
                    have hres : others = res := by simpa using h
                    rw [← hres]
                    exact htail
            | false =>
              cases hw : walkChildren now nd cs with
              | error er => rw [hw] at h; simp at h
              | ok others =>
                rw [hw] at h
                have hres : others = res := by simpa using h
                rw [← hres]
                exact ih2 others hw c2 hmem hc2hid q hnhq hrva

/-- Abort behaviour of the walk: a non-hidden entry (reached through
non-hidden components) that is neither a directory nor a regular file makes
the whole traversal fail `_is_video`'s assertion; stated for the tree and for
child lists simultaneously. -/
theorem grv_abort (now nd : Int) :
    (∀ e, ∀ p, NonHiddenPath p → BadEntryAt e p →
      ∀ res, get_recent_videos now nd e ≠ .ok res) ∧
    (∀ l, ∀ c ∈ l, isHidden c.name = false →
      ∀ q, NonHiddenPath q → BadEntryAt c q →
      ∀ res, walkChildren now nd l ≠ .ok res) := by
  refine fsEntry_induction
    (fun e => ∀ p, NonHiddenPath p → BadEntryAt e p →
      ∀ res, get_recent_videos now nd e ≠ .ok res)
    (fun l => ∀ c ∈ l, isHidden c.name = false →
      ∀ q, NonHiddenPath q → BadEntryAt c q →
      ∀ res, walkChildren now nd l ≠ .ok res)
    ?_ ?_ ?_ ?_
  · intro n ct r p hnh hbad res h
    simp [get_recent_videos] at h
  · intro n cs ih p hnh hbad res h
    have hw : walkChildren now nd cs = .ok res := by
      simpa [get_recent_videos] using h
    obtain ⟨fn, ct, hpt⟩ := hbad
    cases hpt with
    | child c hc hp2 =>
      exact ih c hc (hnh c.name (List.mem_cons_self _ _)) _
        (fun n0 hn0 => hnh n0 (List.mem_cons_of_mem _ hn0)) ⟨fn, ct, hp2⟩ res hw
  · intro c hc
    simp at hc
  · intro c cs ih1 ih2 c2 hc2 hc2hid q hnhq hbad res h
    unfold walkChildren at h
    rcases List.mem_cons.mp hc2 with hceq | hmem
    · subst hceq
      have hnothid : ¬ isHidden c2.name = true := by simp [hc2hid]
      rw [if_neg hnothid] at h
      cases c2 with
      | dir n2 cs2 =>
        simp only [] at h
        cases hg : get_recent_videos now nd (.dir n2 cs2) with
        | error er => rw [hg] at h; simp at h
        | ok sub => exact ih1 q hnhq hbad sub hg
      | file n2 ct2 reg =>
        simp only [] at h
        obtain ⟨fn, ct, hpt⟩ := hbad
        cases hpt with
        | here =>
          rw [show is_video n2 false videoExts = Except.error "is not a file" from rfl] at h
          simp at h
    · by_cases hhid : isHidden c.name = true
      · rw [if_pos hhid] at h
        exact ih2 c2 hmem hc2hid q hnhq hbad res h
      · rw [if_neg hhid] at h
        cases c with
        | dir n2 cs2 =>
          simp only [] at h
          cases hg : get_recent_videos now nd (.dir n2 cs2) with
          | error er => rw [hg] at h; simp at h
          | ok sub =>
            rw [hg] at h
            cases hw : walkChildren now nd cs with
            | error er => rw [hw] at h; simp at h
            | ok others => exact ih2 c2 hmem hc2hid q hnhq hbad others hw
        | file n2 ct2 reg =>
          simp only [] at h
          cases hv : is_video n2 reg videoExts with
          | error er => rw [hv] at h; simp at h
          | ok v =>
            rw [hv] at h
            cases v with
            | true =>
              cases hr : is_recent ct2 now nd with
              | error er => rw [hr] at h; simp at h
              | ok r =>
                rw [hr] at h
                cases hw : walkChildren now nd cs with
                | error er => rw [hw] at h; simp at h
                | ok others => exact ih2 c2 hmem hc2hid q hnhq hbad others hw
            | false =>
              cases hw : walkChildren now nd cs with
              | error er => rw [hw] at h; simp at h
              | ok others => exact ih2 c2 hmem hc2hid q hnhq hbad others hw

/-- C1: on any successful walk of a directory tree the returned list contains
no hidden file and nothing under a hidden directory, every returned path
satisfies `_is_video` and `_is_recent` with the given `n_days`, and
conversely every entirely non-hidden path to such a file — at arbitrary
depth — is returned. -/
theorem claim_C1 (now n_days : Int) (e : FSEntry) (res : List FsPath)
    (h : get_recent_videos now n_days e = .ok res) :
    (∀ p ∈ res, NonHiddenPath p ∧ RecentVideoAt now n_days e p) ∧
    (∀ p, NonHiddenPath p → RecentVideoAt now n_days e p → p ∈ res) :=
  ⟨fun p hp => (grv_sound now n_days).1 e res h p hp,
   fun p hnh hrva => (grv_complete now n_days).1 e res h p hnh hrva⟩

/-- Witness for C1 on `demoTree`: the nested fresh video is returned with
both predicates holding, and the completeness direction re-derives its
membership from an explicit path. -/
theorem claim_C1_witness :
    (NonHiddenPath [nm "sub", nm "clip.mp4"] ∧
      RecentVideoAt 0 1 demoTree [nm "sub", nm "clip.mp4"]) ∧
    [nm "sub", nm "clip.mp4"] ∈ [[nm "sub", nm "clip.mp4"]] :=
  ⟨(claim_C1 0 1 demoTree [[nm "sub", nm "clip.mp4"]] rfl).1 _
      (List.mem_singleton.mpr rfl),
   (claim_C1 0 1 demoTree [[nm "sub", nm "clip.mp4"]] rfl).2 _
      (show ∀ n0 ∈ [nm "sub", nm "clip.mp4"], isHidden n0 = false from by decide)
      ⟨nm "clip.mp4", 0,
        PathTo.child (.dir (nm "sub") [.file (nm "clip.mp4") 0 true])
          (List.mem_cons_of_mem _ (List.mem_cons_self _ _))
          (PathTo.child (.file (nm "clip.mp4") 0 true)
            (List.mem_cons_self _ _) (PathTo.here _)),
        rfl, rfl⟩⟩

/-- C10: when the walked part of the tree (reachable through non-hidden
components) holds an entry that is neither a directory nor a regular file,
`get_recent_videos` aborts with an assertion failure instead of skipping
it. -/
theorem claim_C10 (now n_days : Int) (e : FSEntry) (p : FsPath)
    (hnh : NonHiddenPath p) (hbad : BadEntryAt e p) :
    ∃ msg, get_recent_videos now n_days e = .error msg := by
  have hne := (grv_abort now n_days).1 e p hnh hbad
  cases hres : get_recent_videos now n_days e with
  | error msg => exact ⟨msg, rfl⟩
  | ok r => exact absurd hres (hne r)

/-- Witness for C10 on `demoBadTree`, whose non-hidden socket entry aborts
the traversal. -/
theorem claim_C10_witness :
    ∃ msg, get_recent_videos 0 1 demoBadTree = .error msg :=
  claim_C10 0 1 demoBadTree [nm "weird.sock"]
    (show ∀ n0 ∈ [nm "weird.sock"], isHidden n0 = false from by decide)
    ⟨nm "weird.sock", 0,
      PathTo.child (.file (nm "weird.sock") 0 false)
        (List.mem_cons_self _ _) (PathTo.here _)⟩

end Compress
